import Mathlib

/-!
Verification of the replay-buffer subsystem and training-loop helpers of the
`deep-rl-toolkit` repository, as a shallow embedding in Lean 4.

Modelled source files:
* `src/rltoolkit/data/buffer/vecbuf.py` — vector replay buffer constructors
  and `PrioritizedVectorReplayBuffer.set_beta`;
* `src/rltoolkit/cleanrl/rl_args.py` — the `PPOArguments` dataclass;
* `src/rltoolkit/cleanrl/agent/ppo_penalty.py` — `PPOPenaltyAgent.learn`;
* `src/examples/atari/atari_rainbow.py` — the `train_fn` beta schedule;
* `src/rltoolkit/envs/utils.py` — `CloudpickleWrapper`.

The single-buffer engine (`base.py`), the prioritized buffer with its sum
tree (`prio.py`) and the buffer manager (`manager.py`) are part of the
repository but their sources are not provided; where a claim depends on
them the corresponding definition is modelled from the spec and marked so
in its doc comment.

Python floats are modelled as exact rationals (`ℚ`); Python ints as `Int`
or `Nat` as appropriate.
-/

namespace RLToolkit

/-! ## Vector replay buffers (`src/rltoolkit/data/buffer/vecbuf.py`) -/

namespace Vecbuf

/-- `int(np.ceil(total_size / buffer_num))` for a nonnegative total and a
positive buffer count, as exact ceiling division on naturals. -/
def ceilSize (total_size buffer_num : Nat) : Nat :=
  (total_size + buffer_num - 1) / buffer_num

/-- A constructed sub-buffer: `ReplayBuffer(size, **kwargs)` records its
capacity and the shared configuration kwargs (kept abstract as `κ`). -/
structure SubBuffer (κ : Type) where
  maxsize : Nat
  kwargs : κ
deriving DecidableEq

/-- Error raised synchronously by the constructors. `assert buffer_num > 0`
in the source raises an `AssertionError`; the spec files it under its
`ConfigurationError` taxonomy (non-positive buffer count). -/
inductive InitError where
  | configurationError
deriving DecidableEq

/-- `VectorReplayBuffer.__init__(total_size, buffer_num, **kwargs)`:
asserts `buffer_num > 0`, computes `size = ceil(total_size / buffer_num)`
and builds `buffer_num` sub-buffers `ReplayBuffer(size, **kwargs)`. -/
def vectorReplayBufferInit (κ : Type) (total_size : Nat) (buffer_num : Int)
    (kwargs : κ) : Except InitError (List (SubBuffer κ)) :=
  if 0 < buffer_num then
    Except.ok (List.replicate buffer_num.toNat
      ⟨ceilSize total_size buffer_num.toNat, kwargs⟩)
  else
    Except.error InitError.configurationError

/-- `PrioritizedVectorReplayBuffer.__init__`: identical size computation,
sub-buffers are `PrioritizedReplayBuffer(size, **kwargs)`. -/
def prioritizedVectorReplayBufferInit (κ : Type) (total_size : Nat)
    (buffer_num : Int) (kwargs : κ) : Except InitError (List (SubBuffer κ)) :=
  if 0 < buffer_num then
    Except.ok (List.replicate buffer_num.toNat
      ⟨ceilSize total_size buffer_num.toNat, kwargs⟩)
  else
    Except.error InitError.configurationError

/-- `HERVectorReplayBuffer.__init__`: identical size computation,
sub-buffers are `HERReplayBuffer(size, **kwargs)`. -/
def herVectorReplayBufferInit (κ : Type) (total_size : Nat)
    (buffer_num : Int) (kwargs : κ) : Except InitError (List (SubBuffer κ)) :=
  if 0 < buffer_num then
    Except.ok (List.replicate buffer_num.toNat
      ⟨ceilSize total_size buffer_num.toNat, kwargs⟩)
  else
    Except.error InitError.configurationError

/-- The per-sub-buffer capacities produced by a successful construction. -/
def bufferSizes (κ : Type) (r : Except InitError (List (SubBuffer κ))) :
    List Nat :=
  match r with
  | Except.ok bufs => bufs.map SubBuffer.maxsize
  | Except.error _ => []

/-- Characterization of the ceiling division used by the constructors. -/
lemma ceilSize_eq (T k : Nat) (hk : 0 < k) :
    ceilSize T k = if T % k = 0 then T / k else T / k + 1 := by
  rcases Nat.eq_zero_or_pos (T % k) with h | h
  · obtain ⟨q, rfl⟩ := Nat.dvd_of_mod_eq_zero h
    rw [if_pos h, ceilSize, Nat.mul_div_cancel_left q hk,
      show k * q + k - 1 = (k - 1) + k * q by omega,
      Nat.add_mul_div_left _ _ hk, Nat.div_eq_of_lt (by omega), Nat.zero_add]
  · have hq := Nat.div_add_mod T k
    have hlt : T % k < k := Nat.mod_lt _ hk
    rw [if_neg (by omega), ceilSize,
      show T + k - 1 = (T % k - 1) + k * (T / k + 1) by
        rw [Nat.mul_add, Nat.mul_one]; omega,
      Nat.add_mul_div_left _ _ hk, Nat.div_eq_of_lt (by omega), Nat.zero_add]

/-- The combined capacity `k * ceil(T / k)` equals `T` exactly when `k`
divides `T`, and strictly exceeds `T` otherwise. -/
lemma mul_ceilSize_spec (T k : Nat) (hk : 0 < k) :
    (k ∣ T → k * ceilSize T k = T) ∧ (¬ k ∣ T → T < k * ceilSize T k) := by
  have hq := Nat.div_add_mod T k
  have hlt : T % k < k := Nat.mod_lt _ hk
  have hdvd : k ∣ T ↔ T % k = 0 := Nat.dvd_iff_mod_eq_zero
  rw [ceilSize_eq T k hk]
  constructor
  · intro hd
    rw [if_pos (hdvd.mp hd)]
    have h0 : T % k = 0 := hdvd.mp hd
    omega
  · intro hd
    rw [if_neg (fun h => hd (hdvd.mpr h)), Nat.mul_add, Nat.mul_one]
    omega

end Vecbuf

open Vecbuf in
/-- C6: for every total size `T` and buffer count `k > 0`, each of the three
vector-buffer constructors creates exactly `k` sub-buffers, all with the same
capacity `ceil(T/k)` and all built from the same kwargs; the combined
capacity is `k * ceil(T/k)`, strictly exceeding `T` when `k` does not divide
`T`; e.g. `T = 10`, `k = 3` yields three sub-buffers of capacity 4 with
combined capacity 12. -/
theorem vector_buffers_uniform_ceil_capacity (κ : Type) (T : Nat) (k : Int)
    (kw : κ) (hk : 0 < k) :
    vectorReplayBufferInit κ T k kw =
      Except.ok (List.replicate k.toNat ⟨ceilSize T k.toNat, kw⟩) ∧
    prioritizedVectorReplayBufferInit κ T k kw =
      Except.ok (List.replicate k.toNat ⟨ceilSize T k.toNat, kw⟩) ∧
    herVectorReplayBufferInit κ T k kw =
      Except.ok (List.replicate k.toNat ⟨ceilSize T k.toNat, kw⟩) ∧
    bufferSizes κ (vectorReplayBufferInit κ T k kw)
      = List.replicate k.toNat (ceilSize T k.toNat) ∧
    (bufferSizes κ (vectorReplayBufferInit κ T k kw)).sum
      = k.toNat * ceilSize T k.toNat ∧
    (¬ k.toNat ∣ T → T < k.toNat * ceilSize T k.toNat) ∧
    bufferSizes Unit (vectorReplayBufferInit Unit 10 3 ()) = [4, 4, 4] := by
  have hkn : 0 < k.toNat := by omega
  refine ⟨?_, ?_, ?_, ?_, ?_, ?_, ?_⟩
  · rw [vectorReplayBufferInit, if_pos hk]
  · rw [prioritizedVectorReplayBufferInit, if_pos hk]
  · rw [herVectorReplayBufferInit, if_pos hk]
  · rw [vectorReplayBufferInit, if_pos hk, bufferSizes, List.map_replicate]
  · rw [vectorReplayBufferInit, if_pos hk, bufferSizes, List.map_replicate,
      List.sum_replicate, smul_eq_mul]
  · exact (mul_ceilSize_spec T k.toNat hkn).2
  · decide

open Vecbuf in
/-- C6 witness: instantiation at `T = 10`, `k = 3`. -/
theorem vector_buffers_uniform_ceil_capacity_witness :
    (0 : Int) < 3 ∧
    vectorReplayBufferInit Unit 10 3 () =
      Except.ok (List.replicate 3 ⟨4, ()⟩) :=
  ⟨by decide, (vector_buffers_uniform_ceil_capacity Unit 10 3 () (by decide)).1⟩

open Vecbuf in
/-- C1 counterexample: with total capacity 10 and 3 sub-buffers, every
constructor gives all sub-buffers capacity 4 (not 4, 3, 3), and the
per-sub-buffer capacities sum to 12, not 10. -/
theorem vector_buffers_no_remainder_distribution :
    bufferSizes Unit (vectorReplayBufferInit Unit 10 3 ()) = [4, 4, 4] ∧
    bufferSizes Unit (prioritizedVectorReplayBufferInit Unit 10 3 ()) = [4, 4, 4] ∧
    bufferSizes Unit (herVectorReplayBufferInit Unit 10 3 ()) = [4, 4, 4] ∧
    bufferSizes Unit (vectorReplayBufferInit Unit 10 3 ()) ≠ [4, 3, 3] ∧
    (bufferSizes Unit (vectorReplayBufferInit Unit 10 3 ())).sum ≠ 10 := by
  decide

open Vecbuf in
/-- C1 (amended): constructing a vector replay buffer (plain, prioritized or
HER variant) with total capacity `T` and `k` sub-buffers gives every
sub-buffer the same capacity `ceil(T/k)`; the capacities sum to
`k * ceil(T/k)`, which equals `T` exactly when `k` divides `T`; in
particular, for total capacity 10 and 3 sub-buffers the capacities are
4, 4, 4 and the global index space has total size 12. -/
theorem vector_buffers_capacity_sum (κ : Type) (T : Nat) (k : Int)
    (kw : κ) (hk : 0 < k) :
    bufferSizes κ (vectorReplayBufferInit κ T k kw)
      = List.replicate k.toNat (ceilSize T k.toNat) ∧
    bufferSizes κ (prioritizedVectorReplayBufferInit κ T k kw)
      = List.replicate k.toNat (ceilSize T k.toNat) ∧
    bufferSizes κ (herVectorReplayBufferInit κ T k kw)
      = List.replicate k.toNat (ceilSize T k.toNat) ∧
    ((bufferSizes κ (vectorReplayBufferInit κ T k kw)).sum = T ↔
      k.toNat ∣ T) ∧
    bufferSizes Unit (vectorReplayBufferInit Unit 10 3 ()) = [4, 4, 4] ∧
    (bufferSizes Unit (vectorReplayBufferInit Unit 10 3 ())).sum = 12 := by
  have hkn : 0 < k.toNat := by omega
  have hsum : (bufferSizes κ (vectorReplayBufferInit κ T k kw)).sum
      = k.toNat * ceilSize T k.toNat := by
    rw [vectorReplayBufferInit, if_pos hk, bufferSizes, List.map_replicate,
      List.sum_replicate, smul_eq_mul]
  refine ⟨?_, ?_, ?_, ?_, by decide, by decide⟩
  · rw [vectorReplayBufferInit, if_pos hk, bufferSizes, List.map_replicate]
  · rw [prioritizedVectorReplayBufferInit, if_pos hk, bufferSizes,
      List.map_replicate]
  · rw [herVectorReplayBufferInit, if_pos hk, bufferSizes, List.map_replicate]
  · rw [hsum]
    constructor
    · intro h
      exact h ▸ Dvd.intro _ rfl
    · intro h
      exact (mul_ceilSize_spec T k.toNat hkn).1 h

open Vecbuf in
/-- C1 (amended) witness: instantiation at `T = 10`, `k = 3`. -/
theorem vector_buffers_capacity_sum_witness :
    (0 : Int) < 3 ∧
    bufferSizes Unit (vectorReplayBufferInit Unit 10 3 ())
      = List.replicate 3 4 :=
  ⟨by decide, (vector_buffers_capacity_sum Unit 10 3 () (by decide)).1⟩

open Vecbuf in
/-- C7: for every `buffer_num ≤ 0`, each of the three vector-buffer
constructors fails synchronously with the configuration error (the
`assert buffer_num > 0` guard) and no sub-buffer is created. -/
theorem vector_buffers_nonpositive_count_fails (κ : Type) (T : Nat)
    (k : Int) (kw : κ) (hk : k ≤ 0) :
    vectorReplayBufferInit κ T k kw =
      Except.error InitError.configurationError ∧
    prioritizedVectorReplayBufferInit κ T k kw =
      Except.error InitError.configurationError ∧
    herVectorReplayBufferInit κ T k kw =
      Except.error InitError.configurationError := by
  refine ⟨?_, ?_, ?_⟩
  · rw [vectorReplayBufferInit, if_neg (by omega)]
  · rw [prioritizedVectorReplayBufferInit, if_neg (by omega)]
  · rw [herVectorReplayBufferInit, if_neg (by omega)]

open Vecbuf in
/-- C7 witness: instantiation at `buffer_num = 0` (and `-2`). -/
theorem vector_buffers_nonpositive_count_fails_witness :
    (0 : Int) ≤ 0 ∧
    vectorReplayBufferInit Unit 5 0 () =
      Except.error InitError.configurationError ∧
    (-2 : Int) ≤ 0 ∧
    herVectorReplayBufferInit Unit 5 (-2) () =
      Except.error InitError.configurationError :=
  ⟨by decide, (vector_buffers_nonpositive_count_fails Unit 5 0 () (by decide)).1,
    by decide,
    (vector_buffers_nonpositive_count_fails Unit 5 (-2) () (by decide)).2.2⟩

/-! ## Single-buffer engine (spec §3 Buffer, §4.1; `base.py` not provided) -/

namespace Base

/-- Modelled from the spec: the single-buffer engine `ReplayBuffer` of
`src/rltoolkit/data/buffer/base.py`, whose source is not provided. Fixed
capacity `maxsize`; `size` counts valid entries and is capped at the
capacity; the write cursor advances circularly (`index = last_index % N`)
so a full buffer overwrites the oldest entry. Following the spec's testing
device, each transition is represented by an index tag stored in its
slot. -/
structure ReplayBuffer where
  maxsize : Nat
  data : Nat → Option Nat
  size : Nat
  index : Nat

/-- A fresh buffer of capacity `N`: no entries, cursor at slot 0. -/
def ReplayBuffer.empty (N : Nat) : ReplayBuffer :=
  ⟨N, fun _ => none, 0, 0⟩

/-- `add`: writes the tag at the cursor, bumps `size` (capped at the
capacity) and advances the cursor circularly. -/
def ReplayBuffer.add (buf : ReplayBuffer) (tag : Nat) : ReplayBuffer :=
  { buf with
    data := fun j => if j = buf.index then some tag else buf.data j,
    size := min (buf.size + 1) buf.maxsize,
    index := (buf.index + 1) % buf.maxsize }

/-- Add `m` transitions tagged `0, …, m-1` to a fresh buffer of
capacity `N`. -/
def ReplayBuffer.addMany (N m : Nat) : ReplayBuffer :=
  (List.range m).foldl ReplayBuffer.add (ReplayBuffer.empty N)

/-- The tag the circular discipline leaves in slot `j` after `m` adds:
the largest `i < m` with `i % N = j`, and nothing if the slot was never
written. -/
def lastWrite (m N j : Nat) : Option Nat :=
  if j < m % N then some (m - m % N + j)
  else if j < m then some (m - m % N - N + j)
  else none

/-- Full characterization of the buffer state after `m` sequential adds. -/
lemma addMany_spec (N : Nat) (hN : 0 < N) (m : Nat) :
    (ReplayBuffer.addMany N m).maxsize = N ∧
    (ReplayBuffer.addMany N m).size = min m N ∧
    (ReplayBuffer.addMany N m).index = m % N ∧
    ∀ j, (ReplayBuffer.addMany N m).data j =
      if j < N then lastWrite m N j else none := by
  induction m with
  | zero =>
    refine ⟨rfl, by simp [ReplayBuffer.addMany, ReplayBuffer.empty],
      by simp [ReplayBuffer.addMany, ReplayBuffer.empty], ?_⟩
    intro j
    simp only [ReplayBuffer.addMany, List.range_zero, List.foldl_nil,
      ReplayBuffer.empty, lastWrite, Nat.zero_mod]
    split_ifs <;> first | rfl | omega
  | succ m ih =>
    obtain ⟨hmax, hsize, hindex, hdata⟩ := ih
    have hstep : ReplayBuffer.addMany N (m + 1) =
        (ReplayBuffer.addMany N m).add m := by
      simp [ReplayBuffer.addMany, List.range_succ]
    have hr : m % N < N := Nat.mod_lt _ hN
    have hsucc : (m + 1) % N = (m % N + 1) % N := (Nat.mod_add_mod m N 1).symm
    have hcases : (m % N + 1 = N ∧ (m + 1) % N = 0) ∨
        (m % N + 1 < N ∧ (m + 1) % N = m % N + 1) := by
      by_cases hc : m % N + 1 = N
      · exact Or.inl ⟨hc, by rw [hsucc, hc, Nat.mod_self]⟩
      · have hlt : m % N + 1 < N := by omega
        exact Or.inr ⟨hlt, by rw [hsucc, Nat.mod_eq_of_lt hlt]⟩
    refine ⟨by rw [hstep]; exact hmax, ?_, ?_, ?_⟩
    · rw [hstep]
      show min ((ReplayBuffer.addMany N m).size + 1)
          (ReplayBuffer.addMany N m).maxsize = min (m + 1) N
      rw [hsize, hmax]
      omega
    · rw [hstep]
      show ((ReplayBuffer.addMany N m).index + 1) %
          (ReplayBuffer.addMany N m).maxsize = (m + 1) % N
      rw [hindex, hmax, hsucc]
    · intro j
      rw [hstep]
      show (if j = (ReplayBuffer.addMany N m).index then some m
            else (ReplayBuffer.addMany N m).data j) =
          if j < N then lastWrite (m + 1) N j else none
      rw [hindex, hdata]
      have hmle : m % N ≤ m := Nat.mod_le m N
      have hmod_eq : m % N = m ∨ N ≤ m := by
        rcases Nat.lt_or_ge m N with h | h
        · exact Or.inl (Nat.mod_eq_of_lt h)
        · exact Or.inr h
      rcases hcases with ⟨hc1, hc2⟩ | ⟨hc1, hc2⟩ <;>
        · simp only [lastWrite, hc2]
          split_ifs <;> first | rfl | (exfalso; omega) |
            (simp only [Option.some.injEq]; omega)

/-- If two naturals share a residue mod `N` they are at least `N`
apart. -/
lemma mod_spacing (N t i : Nat) (ht : t % N = i % N) (hlt : t < i) :
    t + N ≤ i := by
  have hdvd : N ∣ i - t := (Nat.modEq_iff_dvd' (le_of_lt hlt)).mp ht
  have := Nat.le_of_dvd (by omega) hdvd
  omega

end Base

open Base in
/-- C2: for a buffer of capacity `N > 0` and more than `N` adds tagged
`0, …, m-1`, `size` stabilizes at `N`, the cursor equals `m % N`, and every
slot `j` holds the most recent tag written to it — a tag `t ≡ j (mod N)`
from the final window `[m - N, m)`, at least as large as every earlier
write to that slot (FIFO overwrite of the oldest entries). In particular,
after 7 adds tagged 0..6 into capacity 5 the slots hold 5, 6, 2, 3, 4 and
the next-overwrite cursor is slot 2. -/
theorem replay_buffer_fifo_overwrite (N m : Nat) (hN : 0 < N) (hm : N < m) :
    (ReplayBuffer.addMany N m).size = N ∧
    (ReplayBuffer.addMany N m).index = m % N ∧
    (∀ j, j < N → ∃ t, (ReplayBuffer.addMany N m).data j = some t ∧
      t % N = j ∧ m - N ≤ t ∧ t < m ∧
      (∀ i, i < m → i % N = j → i ≤ t)) ∧
    ((ReplayBuffer.addMany 5 7).data 0 = some 5 ∧
     (ReplayBuffer.addMany 5 7).data 1 = some 6 ∧
     (ReplayBuffer.addMany 5 7).data 2 = some 2 ∧
     (ReplayBuffer.addMany 5 7).data 3 = some 3 ∧
     (ReplayBuffer.addMany 5 7).data 4 = some 4 ∧
     (ReplayBuffer.addMany 5 7).index = 2 ∧
     (ReplayBuffer.addMany 5 7).size = 5) := by
  obtain ⟨hmax, hsize, hindex, hdata⟩ := Base.addMany_spec N hN m
  have hdm := Nat.div_add_mod m N
  have hr : m % N < N := Nat.mod_lt _ hN
  have hq1 : 1 ≤ m / N := (Nat.one_le_div_iff hN).mpr (le_of_lt hm)
  have hge : N ≤ N * (m / N) := by
    calc N = N * 1 := (Nat.mul_one N).symm
    _ ≤ N * (m / N) := Nat.mul_le_mul_left N hq1
  refine ⟨by rw [hsize]; omega, hindex, ?_, by decide⟩
  intro j hj
  have hdj := hdata j
  rw [if_pos hj] at hdj
  by_cases hjr : j < m % N
  · refine ⟨m - m % N + j, ?_, ?_, by omega, by omega, ?_⟩
    · rw [hdj, lastWrite, if_pos hjr]
    · rw [show m - m % N + j = N * (m / N) + j by omega,
        Nat.mul_add_mod, Nat.mod_eq_of_lt hj]
    · intro i him hij
      by_contra hcon
      have hsp := Base.mod_spacing N (m - m % N + j) i
        (by rw [show m - m % N + j = N * (m / N) + j by omega,
          Nat.mul_add_mod, Nat.mod_eq_of_lt hj, hij]) (by omega)
      omega
  · have htmod : (m - m % N - N + j) % N = j := by
      have h5 := Nat.add_mod_right (m - m % N - N + j) N
      rw [show m - m % N - N + j + N = N * (m / N) + j by omega] at h5
      rw [← h5, Nat.mul_add_mod, Nat.mod_eq_of_lt hj]
    refine ⟨m - m % N - N + j, ?_, htmod, by omega, by omega, ?_⟩
    · rw [hdj, lastWrite, if_neg hjr, if_pos (by omega)]
    · intro i him hij
      by_contra hcon
      have hsp := Base.mod_spacing N (m - m % N - N + j) i
        (by rw [htmod, hij]) (by omega)
      omega

open Base in
/-- C2 witness: capacity 5, seven adds. -/
theorem replay_buffer_fifo_overwrite_witness :
    0 < 5 ∧ 5 < 7 ∧
    (ReplayBuffer.addMany 5 7).size = 5 ∧
    (ReplayBuffer.addMany 5 7).index = 7 % 5 :=
  ⟨by decide, by decide, (replay_buffer_fifo_overwrite 5 7 (by decide) (by decide)).1,
    (replay_buffer_fifo_overwrite 5 7 (by decide) (by decide)).2.1⟩

/-! ## Sum tree (spec §3 Priority index, §4.2; `prio.py` / segment tree
source not provided) -/

namespace SumTree

/-- Modelled from the spec: the priority index is an array of length `2N`
(`N = 2^h` leaves) viewed as a complete binary tree: node `j` has children
`2j` and `2j + 1`, the root is node 1, leaf `i` lives at index `N + i`.
The array is modelled as a function from index to rational value. A fresh
tree is all zeros, so every unwritten slot carries priority zero. -/
def zeros : Nat → ℚ := fun _ => 0

/-- Add `d` to node `j` and to every ancestor of `j` up to the root
(node 1): the delta-propagation step of `update`. -/
def propagate : (Nat → ℚ) → Nat → ℚ → Nat → ℚ
  | tr, 0, _ => tr
  | tr, j + 1, d =>
      propagate (fun k => if k = j + 1 then tr k + d else tr k) ((j + 1) / 2) d
termination_by _ j _ => j
decreasing_by omega

/-- `update(leaf_index, priority)` on a tree with `n` leaves: sets leaf
`n + i` to `p` and propagates the delta to the ancestors, in O(log n). -/
def update (n : Nat) (tr : Nat → ℚ) (i : Nat) (p : ℚ) : Nat → ℚ :=
  propagate tr (n + i) (p - tr (n + i))

/-- Apply a sequence of `update` calls to a fresh (all-zero) tree. -/
def applyUpdates (n : Nat) (us : List (Nat × ℚ)) : Nat → ℚ :=
  us.foldl (fun tr u => update n tr u.1 u.2) zeros

/-- The sum-tree invariant for `2^h` leaves: every internal node (indices
`1, …, 2^h - 1`) holds the sum of its two children. -/
def Inv (h : Nat) (tr : Nat → ℚ) : Prop :=
  ∀ j, 1 ≤ j → j < 2 ^ h → tr j = tr (2 * j) + tr (2 * j + 1)

/-- Proportional descent from node `j` with `d` levels to go: go left if
the target is below the left child's sum, otherwise subtract the left sum
and go right, until a leaf is reached. -/
def descend (tr : Nat → ℚ) : Nat → Nat → ℚ → Nat
  | 0, j, _ => j
  | d + 1, j, t =>
      if t < tr (2 * j) then descend tr d (2 * j) t
      else descend tr d (2 * j + 1) (t - tr (2 * j))

/-- The equal-width stratification targets: `[0, total)` is split into `k`
segments and the `i`-th uniform draw `u_i ∈ [0, 1)` is rescaled into the
`i`-th segment. -/
def stratifiedTargets (total : ℚ) (k : Nat) (us : List ℚ) : List ℚ :=
  (List.range k).map
    (fun (i : Nat) => ((i : ℚ) + us.getD i 0) * (total / (k : ℚ)))

/-- Stratified proportional sampling of `k` indices: one tree descent from
the root per stratification target. -/
def stratifiedSample (tr : Nat → ℚ) (h k : Nat) (us : List ℚ) : List Nat :=
  (stratifiedTargets (tr 1) k us).map (descend tr h 1)

/-- Iterated halving: one halving step followed by `t` more. -/
lemma div_two_pow (j t : Nat) : j / 2 / 2 ^ t = j / 2 ^ (t + 1) := by
  rw [Nat.div_div_eq_div_mul]
  congr 1
  ring

/-- `propagate` leaves every node off the root path of `j` unchanged. -/
lemma propagate_off_path (j : Nat) :
    ∀ (tr : Nat → ℚ) (d : ℚ) (k : Nat), (∀ t, j / 2 ^ t ≠ k) →
      propagate tr j d k = tr k := by
  induction j using Nat.strong_induction_on with
  | _ j ih =>
    intro tr d k hk
    match j with
    | 0 => simp [propagate]
    | j' + 1 =>
      rw [propagate]
      rw [ih ((j' + 1) / 2) (by omega) _ d k ?_]
      · have hne : k ≠ j' + 1 := fun he => hk 0 (by simpa using he.symm)
        simp [hne]
      · intro t ht
        exact hk (t + 1) (by rw [← div_two_pow, ht])

/-- `propagate` adds `d` to every node on the root path of `j` (other than
node 0). -/
lemma propagate_on_path (j : Nat) :
    ∀ (tr : Nat → ℚ) (d : ℚ) (k : Nat), 1 ≤ k → (∃ t, j / 2 ^ t = k) →
      propagate tr j d k = tr k + d := by
  induction j using Nat.strong_induction_on with
  | _ j ih =>
    intro tr d k hk1 ⟨t, ht⟩
    match j with
    | 0 =>
      exfalso
      rw [Nat.zero_div] at ht
      omega
    | j' + 1 =>
      rw [propagate]
      by_cases hkj : k = j' + 1
      · subst hkj
        rw [propagate_off_path _ _ _ _ ?_]
        · simp
        · intro s hs
          have hle : (j' + 1) / 2 / 2 ^ s ≤ (j' + 1) / 2 := Nat.div_le_self _ _
          omega
      · have ht' : t ≠ 0 := by
          intro h0
          rw [h0, pow_zero, Nat.div_one] at ht
          exact hkj ht.symm
        obtain ⟨s, rfl⟩ : ∃ s, t = s + 1 := ⟨t - 1, by omega⟩
        rw [ih ((j' + 1) / 2) (by omega) _ d k hk1 ⟨s, by rw [div_two_pow, ht]⟩]
        simp [hkj]

/-- Iterated halving composes additively. -/
lemma div_pow_add (j a b : Nat) : j / 2 ^ a / 2 ^ b = j / 2 ^ (a + b) := by
  rw [Nat.div_div_eq_div_mul, ← pow_add]

/-- The two children of an internal node `j ≥ 1` cannot both lie on the
root path of a single index. -/
lemma not_both_children (l j : Nat) (hj : 1 ≤ j)
    (h1 : ∃ s, l / 2 ^ s = 2 * j) (h2 : ∃ t, l / 2 ^ t = 2 * j + 1) :
    False := by
  obtain ⟨s, hs⟩ := h1
  obtain ⟨t, ht⟩ := h2
  rcases Nat.le_total s t with hst | hst
  · have hq : 2 * j / 2 ^ (t - s) = 2 * j + 1 := by
      calc 2 * j / 2 ^ (t - s) = l / 2 ^ s / 2 ^ (t - s) := by rw [hs]
      _ = l / 2 ^ (s + (t - s)) := div_pow_add l s (t - s)
      _ = l / 2 ^ t := by rw [show s + (t - s) = t by omega]
      _ = 2 * j + 1 := ht
    have := Nat.div_le_self (2 * j) (2 ^ (t - s))
    omega
  · have hq : (2 * j + 1) / 2 ^ (s - t) = 2 * j := by
      calc (2 * j + 1) / 2 ^ (s - t) = l / 2 ^ t / 2 ^ (s - t) := by rw [ht]
      _ = l / 2 ^ (t + (s - t)) := div_pow_add l t (s - t)
      _ = l / 2 ^ s := by rw [show t + (s - t) = s by omega]
      _ = 2 * j := hs
    rcases Nat.eq_zero_or_pos (s - t) with h0 | h0
    · rw [h0, pow_zero, Nat.div_one] at hq
      omega
    · have hle : (2 * j + 1) / 2 ^ (s - t) ≤ (2 * j + 1) / 2 := by
        have h2le : 2 ^ 1 ≤ 2 ^ (s - t) := Nat.pow_le_pow_right (by norm_num) h0
        rw [pow_one] at h2le
        exact Nat.div_le_div_left h2le (by norm_num)
      omega

/-- If a child of `j` is on the root path of `l`, so is `j`. -/
lemma parent_on_path (l j c : Nat) (hc : c = 2 * j ∨ c = 2 * j + 1)
    (h : ∃ s, l / 2 ^ s = c) : ∃ t, l / 2 ^ t = j := by
  obtain ⟨s, hs⟩ := h
  refine ⟨s + 1, ?_⟩
  rw [← div_pow_add, hs, pow_one]
  omega

/-- `update` preserves the sum-tree invariant. -/
lemma inv_update (h : Nat) (tr : Nat → ℚ) (hInv : Inv h tr) (i : Nat)
    (p : ℚ) : Inv h (update (2 ^ h) tr i p) := by
  intro j hj1 hjh
  simp only [update]
  set l := 2 ^ h + i with hl
  set d := p - tr l with hd
  by_cases hpath : ∃ t, l / 2 ^ t = j
  · obtain ⟨t, ht⟩ := hpath
    have hjl : j < l := by
      have h1 : j < 2 ^ h := hjh
      omega
    have ht0 : t ≠ 0 := by
      intro h0
      rw [h0, pow_zero, Nat.div_one] at ht
      omega
    obtain ⟨s, rfl⟩ : ∃ s, t = s + 1 := ⟨t - 1, by omega⟩
    have hc : l / 2 ^ s / 2 = j := by
      have hda := div_pow_add l s 1
      rw [pow_one] at hda
      rw [hda]
      exact ht
    have hj' : propagate tr l d j = tr j + d :=
      propagate_on_path l tr d j hj1 ⟨s + 1, ht⟩
    have hc2 : l / 2 ^ s = 2 * j ∨ l / 2 ^ s = 2 * j + 1 := by omega
    rcases hc2 with hc2 | hc2
    · have hlc : propagate tr l d (2 * j) = tr (2 * j) + d :=
        propagate_on_path l tr d (2 * j) (by omega) ⟨s, hc2⟩
      have hrc : propagate tr l d (2 * j + 1) = tr (2 * j + 1) := by
        refine propagate_off_path l tr d (2 * j + 1) ?_
        intro u hu
        exact not_both_children l j hj1 ⟨s, hc2⟩ ⟨u, hu⟩
      rw [hj', hlc, hrc, hInv j hj1 hjh]
      ring
    · have hlc : propagate tr l d (2 * j) = tr (2 * j) := by
        refine propagate_off_path l tr d (2 * j) ?_
        intro u hu
        exact not_both_children l j hj1 ⟨u, hu⟩ ⟨s, hc2⟩
      have hrc : propagate tr l d (2 * j + 1) = tr (2 * j + 1) + d :=
        propagate_on_path l tr d (2 * j + 1) (by omega) ⟨s, hc2⟩
      rw [hj', hlc, hrc, hInv j hj1 hjh]
      ring
  · have hj' : propagate tr l d j = tr j :=
      propagate_off_path l tr d j (fun t ht => hpath ⟨t, ht⟩)
    have hlc : propagate tr l d (2 * j) = tr (2 * j) :=
      propagate_off_path l tr d (2 * j)
        (fun t ht => hpath (parent_on_path l j (2 * j) (Or.inl rfl) ⟨t, ht⟩))
    have hrc : propagate tr l d (2 * j + 1) = tr (2 * j + 1) :=
      propagate_off_path l tr d (2 * j + 1)
        (fun t ht => hpath (parent_on_path l j (2 * j + 1) (Or.inr rfl) ⟨t, ht⟩))
    rw [hj', hlc, hrc]
    exact hInv j hj1 hjh

/-- The all-zero tree satisfies the invariant. -/
lemma inv_zeros (h : Nat) : Inv h zeros := by
  intro j hj1 hjh
  simp [zeros]

/-- A sequence of updates preserves the invariant (folded form). -/
lemma inv_foldl (h : Nat) (us : List (Nat × ℚ)) :
    ∀ tr, Inv h tr →
      Inv h (us.foldl (fun tr u => update (2 ^ h) tr u.1 u.2) tr) := by
  induction us with
  | nil => intro tr htr; exact htr
  | cons u us ih =>
    intro tr htr
    exact ih _ (inv_update h tr htr u.1 u.2)

/-- `update` writes `p` into the addressed leaf. -/
lemma update_leaf_self (n : Nat) (hn : 0 < n) (tr : Nat → ℚ) (i : Nat)
    (p : ℚ) : update n tr i p (n + i) = p := by
  rw [update, propagate_on_path (n + i) tr _ (n + i) (by omega)
    ⟨0, by rw [pow_zero, Nat.div_one]⟩]
  ring

/-- `update` leaves every other leaf unchanged. -/
lemma update_leaf_other (n : Nat) (tr : Nat → ℚ) (i : Nat) (p : ℚ)
    (i' : Nat) (hi : i < n) (hne : i' ≠ i) :
    update n tr i p (n + i') = tr (n + i') := by
  rw [update]
  refine propagate_off_path (n + i) tr _ (n + i') ?_
  intro t ht
  match t with
  | 0 =>
    rw [pow_zero, Nat.div_one] at ht
    omega
  | t' + 1 =>
    have hle : (n + i) / 2 ^ (t' + 1) ≤ (n + i) / 2 := by
      have h2le : 2 ^ 1 ≤ 2 ^ (t' + 1) := Nat.pow_le_pow_right (by norm_num) (by omega)
      rw [pow_one] at h2le
      exact Nat.div_le_div_left h2le (by norm_num)
    omega

/-- A slot never addressed by any update keeps leaf value zero. -/
lemma foldl_leaf_zero (n : Nat) (i : Nat) :
    ∀ (us : List (Nat × ℚ)) (tr : Nat → ℚ), (∀ u ∈ us, u.1 < n) →
      (∀ u ∈ us, u.1 ≠ i) → tr (n + i) = 0 →
      us.foldl (fun tr u => update n tr u.1 u.2) tr (n + i) = 0 := by
  intro us
  induction us with
  | nil => intro tr _ _ h0; exact h0
  | cons u us ih =>
    intro tr hidx hne h0
    rw [List.foldl_cons]
    refine ih _ (fun v hv => hidx v (List.mem_cons_of_mem u hv))
      (fun v hv => hne v (List.mem_cons_of_mem u hv)) ?_
    rw [update_leaf_other n tr u.1 u.2 i (hidx u (List.mem_cons_self u us))
      (fun he => hne u (List.mem_cons_self u us) he.symm)]
    exact h0

/-- Inside an invariant tree, a node at `d` levels above the leaves holds
the sum of the `2^d` leaves of its subtree. The node `j` sits at level
`e` from the root (`d + e = h`, `2^e ≤ j < 2^(e+1)`). -/
lemma subtree_sum (h : Nat) (tr : Nat → ℚ) (hInv : Inv h tr) :
    ∀ (d e j : Nat), d + e = h → 2 ^ e ≤ j → j < 2 ^ e * 2 →
      tr j = ∑ x in Finset.Ico (j * 2 ^ d) ((j + 1) * 2 ^ d), tr x := by
  intro d
  induction d with
  | zero =>
    intro e j hde hj1 hj2
    rw [pow_zero, mul_one, mul_one, Nat.Ico_succ_singleton,
      Finset.sum_singleton]
  | succ d ih =>
    intro e j hde hj1 hj2
    have hp : 2 ^ (e + 1) = 2 ^ e * 2 := pow_succ 2 e
    have hj0 : 1 ≤ j := le_trans Nat.one_le_two_pow hj1
    have hph : 2 ^ (e + 1) ≤ 2 ^ h := Nat.pow_le_pow_right (by norm_num) (by omega)
    have hjh : j < 2 ^ h := by omega
    have hL := ih (e + 1) (2 * j) (by omega) (by omega) (by omega)
    have hR := ih (e + 1) (2 * j + 1) (by omega) (by omega) (by omega)
    have hsplit := Finset.sum_Ico_consecutive tr
      (Nat.mul_le_mul_right (2 ^ d) (show 2 * j ≤ 2 * j + 1 by omega))
      (Nat.mul_le_mul_right (2 ^ d) (show 2 * j + 1 ≤ 2 * j + 1 + 1 by omega))
    rw [show j * 2 ^ (d + 1) = 2 * j * 2 ^ d by ring,
      show (j + 1) * 2 ^ (d + 1) = (2 * j + 1 + 1) * 2 ^ d by ring,
      ← hsplit, hInv j hj0 hjh, hL, hR]

/-- `total()` (the root value) equals the sum of all leaves. -/
lemma total_eq_leaf_sum (h : Nat) (tr : Nat → ℚ) (hInv : Inv h tr) :
    tr 1 = ∑ i in Finset.range (2 ^ h), tr (2 ^ h + i) := by
  have hs := subtree_sum h tr hInv h 0 1 (by omega) (by norm_num) (by norm_num)
  rw [one_mul] at hs
  rw [hs, Finset.sum_Ico_eq_sum_range]
  have hcard : (1 + 1) * 2 ^ h - 2 ^ h = 2 ^ h := by omega
  rw [hcard]

/-- Correctness of the proportional descent: starting from node `j` (at
`d` levels above the leaves) with `0 ≤ t < tr j`, the descent lands on a
leaf of `j`'s subtree whose cumulative-priority interval contains `t`. -/
lemma descend_spec (h : Nat) (tr : Nat → ℚ) (hInv : Inv h tr) :
    ∀ (d e j : Nat) (t : ℚ), d + e = h → 2 ^ e ≤ j → j < 2 ^ e * 2 →
      0 ≤ t → t < tr j →
      (j * 2 ^ d ≤ descend tr d j t ∧ descend tr d j t < (j + 1) * 2 ^ d) ∧
      (∑ x in Finset.Ico (j * 2 ^ d) (descend tr d j t), tr x) ≤ t ∧
      t < ∑ x in Finset.Ico (j * 2 ^ d) (descend tr d j t + 1), tr x := by
  intro d
  induction d with
  | zero =>
    intro e j t hde hj1 hj2 ht0 htj
    rw [descend]
    refine ⟨⟨by omega, by omega⟩, ?_, ?_⟩
    · rw [pow_zero, mul_one, Finset.Ico_self, Finset.sum_empty]
      exact ht0
    · rw [pow_zero, mul_one, Nat.Ico_succ_singleton, Finset.sum_singleton]
      exact htj
  | succ d ih =>
    intro e j t hde hj1 hj2 ht0 htj
    have hp : 2 ^ (e + 1) = 2 ^ e * 2 := pow_succ 2 e
    have hj0 : 1 ≤ j := le_trans Nat.one_le_two_pow hj1
    have hph : 2 ^ (e + 1) ≤ 2 ^ h := Nat.pow_le_pow_right (by norm_num) (by omega)
    have hjh : j < 2 ^ h := by omega
    have hIj := hInv j hj0 hjh
    rw [descend]
    by_cases hcase : t < tr (2 * j)
    · rw [if_pos hcase]
      obtain ⟨⟨hb1, hb2⟩, hs1, hs2⟩ :=
        ih (e + 1) (2 * j) t (by omega) (by omega) (by omega) ht0 hcase
      refine ⟨⟨?_, ?_⟩, ?_, ?_⟩
      · calc j * 2 ^ (d + 1) = 2 * j * 2 ^ d := by ring
        _ ≤ descend tr d (2 * j) t := hb1
      · calc descend tr d (2 * j) t < (2 * j + 1) * 2 ^ d := hb2
        _ ≤ (2 * j + 1 + 1) * 2 ^ d :=
          Nat.mul_le_mul_right (2 ^ d) (by omega)
        _ = (j + 1) * 2 ^ (d + 1) := by ring
      · rw [show j * 2 ^ (d + 1) = 2 * j * 2 ^ d by ring]
        exact hs1
      · rw [show j * 2 ^ (d + 1) = 2 * j * 2 ^ d by ring]
        exact hs2
    · rw [if_neg hcase]
      push_neg at hcase
      have ht0' : 0 ≤ t - tr (2 * j) := by linarith
      have htj' : t - tr (2 * j) < tr (2 * j + 1) := by
        rw [hIj] at htj
        linarith
      obtain ⟨⟨hb1, hb2⟩, hs1, hs2⟩ :=
        ih (e + 1) (2 * j + 1) (t - tr (2 * j)) (by omega) (by omega)
          (by omega) ht0' htj'
      have hsum2j := subtree_sum h tr hInv d (e + 1) (2 * j) (by omega)
        (by omega) (by omega)
      refine ⟨⟨?_, ?_⟩, ?_, ?_⟩
      · calc j * 2 ^ (d + 1) = 2 * j * 2 ^ d := by ring
        _ ≤ (2 * j + 1) * 2 ^ d := Nat.mul_le_mul_right (2 ^ d) (by omega)
        _ ≤ descend tr d (2 * j + 1) (t - tr (2 * j)) := hb1
      · calc descend tr d (2 * j + 1) (t - tr (2 * j))
            < (2 * j + 1 + 1) * 2 ^ d := hb2
        _ = (j + 1) * 2 ^ (d + 1) := by ring
      · have hsplit := Finset.sum_Ico_consecutive tr
          (Nat.mul_le_mul_right (2 ^ d) (show 2 * j ≤ 2 * j + 1 by omega)) hb1
        rw [show j * 2 ^ (d + 1) = 2 * j * 2 ^ d by ring, ← hsplit, ← hsum2j]
        linarith
      · have hsplit := Finset.sum_Ico_consecutive tr
          (Nat.mul_le_mul_right (2 ^ d) (show 2 * j ≤ 2 * j + 1 by omega))
          (le_trans hb1 (Nat.le_succ _))
        rw [show j * 2 ^ (d + 1) = 2 * j * 2 ^ d by ring, ← hsplit, ← hsum2j]
        linarith

/-- Descent from the root with a target in `[0, total)` returns a leaf
whose cumulative interval contains the target; that leaf has strictly
positive value. -/
lemma descend_root_spec (h : Nat) (tr : Nat → ℚ) (hInv : Inv h tr)
    (t : ℚ) (ht0 : 0 ≤ t) (htl : t < tr 1) :
    2 ^ h ≤ descend tr h 1 t ∧ descend tr h 1 t < 2 ^ h * 2 ∧
    (∑ x in Finset.Ico (2 ^ h) (descend tr h 1 t), tr x) ≤ t ∧
    t < (∑ x in Finset.Ico (2 ^ h) (descend tr h 1 t), tr x) +
      tr (descend tr h 1 t) ∧
    0 < tr (descend tr h 1 t) := by
  obtain ⟨⟨hb1, hb2⟩, hs1, hs2⟩ :=
    descend_spec h tr hInv h 0 1 t (by omega) (by norm_num) (by norm_num)
      ht0 htl
  rw [one_mul] at hb1 hs1 hs2
  rw [Finset.sum_Ico_succ_top hb1] at hs2
  have hb2' : descend tr h 1 t < 2 ^ h * 2 := by
    have : (1 + 1) * 2 ^ h = 2 ^ h * 2 := by ring
    omega
  exact ⟨hb1, hb2', hs1, hs2, by linarith⟩

end SumTree

open SumTree in
/-- C3: after any sequence of priority-index `update` calls (on valid leaf
indices), every internal node's value equals the sum of its two children;
`total()` (the root) equals the sum of all leaf values; and the leaf of
every slot never addressed by an update is zero, so the proportional
descent never returns that slot for any target in `[0, total)`. -/
theorem sum_tree_update_invariant (h : Nat) (us : List (Nat × ℚ))
    (hidx : ∀ u ∈ us, u.1 < 2 ^ h) :
    Inv h (applyUpdates (2 ^ h) us) ∧
    applyUpdates (2 ^ h) us 1 =
      ∑ i in Finset.range (2 ^ h), applyUpdates (2 ^ h) us (2 ^ h + i) ∧
    ∀ i, i < 2 ^ h → (∀ u ∈ us, u.1 ≠ i) →
      applyUpdates (2 ^ h) us (2 ^ h + i) = 0 ∧
      ∀ t : ℚ, 0 ≤ t → t < applyUpdates (2 ^ h) us 1 →
        descend (applyUpdates (2 ^ h) us) h 1 t ≠ 2 ^ h + i := by
  have hA : applyUpdates (2 ^ h) us =
      us.foldl (fun tr u => update (2 ^ h) tr u.1 u.2) zeros := rfl
  have hInv : Inv h (applyUpdates (2 ^ h) us) := by
    rw [hA]
    exact inv_foldl h us zeros (inv_zeros h)
  refine ⟨hInv, total_eq_leaf_sum h _ hInv, ?_⟩
  intro i hi hne
  have hzero : applyUpdates (2 ^ h) us (2 ^ h + i) = 0 := by
    rw [hA]
    exact foldl_leaf_zero (2 ^ h) i us zeros hidx hne rfl
  refine ⟨hzero, ?_⟩
  intro t ht0 htl heq
  have hpos := (descend_root_spec h _ hInv t ht0 htl).2.2.2.2
  rw [heq, hzero] at hpos
  exact lt_irrefl 0 hpos

open SumTree in
/-- C3 witness: one update on a two-leaf tree; slot 1 is unwritten. -/
theorem sum_tree_update_invariant_witness :
    (∀ u ∈ [((0 : Nat), (5 : ℚ))], u.1 < 2 ^ 1) ∧
    applyUpdates (2 ^ 1) [((0 : Nat), (5 : ℚ))] 1 =
      ∑ i in Finset.range (2 ^ 1),
        applyUpdates (2 ^ 1) [((0 : Nat), (5 : ℚ))] (2 ^ 1 + i) :=
  ⟨by decide, (sum_tree_update_invariant 1 [((0 : Nat), (5 : ℚ))]
    (by decide)).2.1⟩

open SumTree in
/-- C4: stratified proportional sampling of `batch_size = k` indices
partitions `[0, total)` into `k` equal-width segments, rescales the `i`-th
uniform draw into the `i`-th segment and descends the sum tree by
cumulative-sum comparison; for every batch and every draw the `i`-th
returned index is a leaf whose cumulative-priority interval contains the
`i`-th target, which itself lies in the `i`-th segment. -/
theorem sum_tree_stratified_sampling (h k : Nat) (tr : Nat → ℚ)
    (hInv : SumTree.Inv h tr) (hk : 0 < k) (htot : 0 < tr 1) (us : List ℚ)
    (hus : ∀ i, i < k → 0 ≤ us.getD i 0 ∧ us.getD i 0 < 1) :
    (stratifiedSample tr h k us).length = k ∧
    ∀ i, i < k → ∃ t l,
      (stratifiedTargets (tr 1) k us).getD i 0 = t ∧
      (stratifiedSample tr h k us).getD i 0 = l ∧
      l = descend tr h 1 t ∧
      (i : ℚ) * (tr 1 / (k : ℚ)) ≤ t ∧
      t < ((i : ℚ) + 1) * (tr 1 / (k : ℚ)) ∧
      2 ^ h ≤ l ∧ l < 2 ^ h * 2 ∧
      (∑ x in Finset.Ico (2 ^ h) l, tr x) ≤ t ∧
      t < (∑ x in Finset.Ico (2 ^ h) l, tr x) + tr l := by
  have hkQ : (0 : ℚ) < (k : ℚ) := by exact_mod_cast hk
  have hseg : (0 : ℚ) < tr 1 / (k : ℚ) := div_pos htot hkQ
  constructor
  · simp [stratifiedSample, stratifiedTargets]
  · intro i hi
    set u := us.getD i 0 with hu
    obtain ⟨hu0, hu1⟩ := hus i hi
    set t := ((i : ℚ) + u) * (tr 1 / (k : ℚ)) with htdef
    have htarget : (stratifiedTargets (tr 1) k us).getD i 0 = t := by
      simp [stratifiedTargets, List.getD_eq_getElem?_getD, List.getElem?_map,
        List.getElem?_range, hi]
      rw [htdef, hu, List.getD_eq_getElem?_getD]
    have hsample : (stratifiedSample tr h k us).getD i 0 =
        descend tr h 1 t := by
      simp [stratifiedSample, stratifiedTargets, List.getD_eq_getElem?_getD,
        List.getElem?_map, List.getElem?_range, hi]
      rw [htdef, hu, List.getD_eq_getElem?_getD]
    have ht0 : 0 ≤ t := by
      apply mul_nonneg ?_ (le_of_lt hseg)
      have : (0 : ℚ) ≤ (i : ℚ) := Nat.cast_nonneg i
      linarith
    have hik : (i : ℚ) + 1 ≤ (k : ℚ) := by exact_mod_cast hi
    have htop : t < ((i : ℚ) + 1) * (tr 1 / (k : ℚ)) := by
      apply mul_lt_mul_of_pos_right ?_ hseg
      linarith
    have htl : t < tr 1 := by
      have hle : ((i : ℚ) + 1) * (tr 1 / (k : ℚ)) ≤
          (k : ℚ) * (tr 1 / (k : ℚ)) :=
        mul_le_mul_of_nonneg_right hik (le_of_lt hseg)
      have hks : (k : ℚ) * (tr 1 / (k : ℚ)) = tr 1 := by
        field_simp
      linarith
    obtain ⟨hb1, hb2, hs1, hs2, _⟩ := descend_root_spec h tr hInv t ht0 htl
    refine ⟨t, descend tr h 1 t, htarget, hsample, rfl, ?_, htop, hb1, hb2,
      hs1, hs2⟩
    apply mul_le_mul_of_nonneg_right ?_ (le_of_lt hseg)
    linarith

open SumTree in
/-- C4 witness: a two-leaf invariant tree with priorities 1 and 2,
batch size 2, uniform draws `1/2, 1/2`. -/
theorem sum_tree_stratified_sampling_witness :
    SumTree.Inv 1
      (fun j => if j = 1 then 3 else if j = 2 then 1 else if j = 3 then 2 else 0) ∧
    (stratifiedSample
      (fun j => if j = 1 then 3 else if j = 2 then 1 else if j = 3 then 2 else 0)
      1 2 [1/2, 1/2]).length = 2 := by
  have hInv : SumTree.Inv 1
      (fun j => if j = 1 then (3 : ℚ) else if j = 2 then 1 else if j = 3 then 2 else 0) := by
    intro j hj1 hj2
    have hj : j = 1 := by omega
    subst hj
    norm_num
  refine ⟨hInv, (sum_tree_stratified_sampling 1 2 _ hInv (by norm_num)
    (by norm_num) [1/2, 1/2] ?_).1⟩
  intro i hi
  interval_cases i <;> norm_num

/-! ## Prioritized sub-buffers and `set_beta` (`vecbuf.py`; sub-buffer
state modelled from the spec) -/

namespace Prio

/-- Modelled from the spec: the state of one `PrioritizedReplayBuffer`
(`src/rltoolkit/data/buffer/prio.py`, source not provided): circular
transition storage (capacity, slots, valid size, write cursor), the
per-slot priorities backing the sum tree, the priority exponent `alpha`
and the importance-sampling exponent `beta`. -/
structure PrioritizedReplayBuffer (τ : Type) where
  maxsize : Nat
  data : Nat → Option τ
  size : Nat
  index : Nat
  weight : Nat → ℚ
  alpha : ℚ
  beta : ℚ

/-- Modelled from the spec: `PrioritizedReplayBuffer.set_beta(beta)` makes
the importance-sampling exponent externally mutable for annealing
schedules; it assigns `beta` and nothing else. -/
def PrioritizedReplayBuffer.set_beta (buf : PrioritizedReplayBuffer τ)
    (b : ℚ) : PrioritizedReplayBuffer τ :=
  { buf with beta := b }

/-- The manager state of `PrioritizedVectorReplayBuffer`: the sub-buffers
and the prefix-offset table computed at construction (spec §3). -/
structure PrioritizedVectorReplayBuffer (τ : Type) where
  buffers : List (PrioritizedReplayBuffer τ)
  offset : List Nat

/-- `PrioritizedVectorReplayBuffer.set_beta` (from `vecbuf.py`):
`for buffer in self.buffers: buffer.set_beta(beta)`. -/
def PrioritizedVectorReplayBuffer.set_beta
    (mgr : PrioritizedVectorReplayBuffer τ) (b : ℚ) :
    PrioritizedVectorReplayBuffer τ :=
  { mgr with buffers := mgr.buffers.map (fun buf => buf.set_beta b) }

end Prio

open Prio in
/-- C8: after `PrioritizedVectorReplayBuffer.set_beta(b)` the
importance-sampling exponent of every sub-buffer equals `b`, and nothing
else changes: the manager's offset table, the number of sub-buffers, and
each sub-buffer's stored transitions, size, cursor, capacity, priorities
and `alpha` are all unchanged. -/
theorem prioritized_vector_set_beta_frame (τ : Type)
    (mgr : PrioritizedVectorReplayBuffer τ) (b : ℚ) :
    (mgr.set_beta b).offset = mgr.offset ∧
    (mgr.set_beta b).buffers.length = mgr.buffers.length ∧
    ∀ (i : Nat) (buf buf' : PrioritizedReplayBuffer τ),
      mgr.buffers[i]? = some buf →
      (mgr.set_beta b).buffers[i]? = some buf' →
      buf'.beta = b ∧ buf'.maxsize = buf.maxsize ∧ buf'.data = buf.data ∧
      buf'.size = buf.size ∧ buf'.index = buf.index ∧
      buf'.weight = buf.weight ∧ buf'.alpha = buf.alpha := by
  refine ⟨rfl, by simp [PrioritizedVectorReplayBuffer.set_beta], ?_⟩
  intro i buf buf' hbuf hbuf'
  rw [PrioritizedVectorReplayBuffer.set_beta] at hbuf'
  simp only [List.getElem?_map, hbuf, Option.map_some', Option.some.injEq]
    at hbuf'
  subst hbuf'
  exact ⟨rfl, rfl, rfl, rfl, rfl, rfl, rfl⟩

open Prio in
/-- C8 witness: a manager with one sub-buffer, `set_beta (9/10)`. -/
theorem prioritized_vector_set_beta_frame_witness :
    ((PrioritizedVectorReplayBuffer.mk
        [⟨2, fun _ => none, 1, 1, fun _ => 0, 3/5, 2/5⟩] [0]).set_beta
        (9/10)).buffers[0]? =
      some ⟨2, fun _ => (none : Option Nat), 1, 1, fun _ => 0, 3/5, 9/10⟩ ∧
    (⟨2, fun _ => (none : Option Nat), 1, 1, fun _ => 0, 3/5, 9/10⟩ :
        PrioritizedReplayBuffer Nat).beta = 9/10 ∧
    (⟨2, fun _ => (none : Option Nat), 1, 1, fun _ => 0, 3/5, 9/10⟩ :
        PrioritizedReplayBuffer Nat).size =
      (⟨2, fun _ => (none : Option Nat), 1, 1, fun _ => 0, 3/5, 2/5⟩ :
        PrioritizedReplayBuffer Nat).size :=
  ⟨rfl,
    ((prioritized_vector_set_beta_frame Nat
      (PrioritizedVectorReplayBuffer.mk
        [⟨2, fun _ => none, 1, 1, fun _ => 0, 3/5, 2/5⟩] [0]) (9/10)).2.2
      0 _ _ rfl rfl).1,
    ((prioritized_vector_set_beta_frame Nat
      (PrioritizedVectorReplayBuffer.mk
        [⟨2, fun _ => none, 1, 1, fun _ => 0, 3/5, 2/5⟩] [0]) (9/10)).2.2
      0 _ _ rfl rfl).2.2.2.1⟩

/-! ## PPO penalty agent (`src/rltoolkit/cleanrl/rl_args.py`,
`src/rltoolkit/cleanrl/agent/ppo_penalty.py`) -/

namespace Cleanrl

/-- A Python attribute value (int, float, str, bool or None). -/
inductive PyVal where
  | int (i : Int)
  | rat (q : ℚ)
  | str (s : String)
  | bool (b : Bool)
  | pynone
deriving DecidableEq

/-- The `PPOArguments` dataclass: the fields inherited from `RLArguments`
followed by the PPO-specific fields, exactly as declared in
`rl_args.py`. -/
structure PPOArguments where
  project : String
  algo_name : String
  use_cuda : Bool
  torch_deterministic : Bool
  seed : Int
  env_id : String
  num_envs : Int
  capture_video : Option Bool
  buffer_size : Int
  batch_size : Int
  gamma : ℚ
  eval_episodes : Int
  work_dir : String
  save_model : Option Bool
  train_log_interval : Int
  test_log_interval : Int
  save_interval : Int
  logger : String
  hidden_dim : Int
  learning_rate : ℚ
  actor_lr : ℚ
  critic_lr : ℚ
  epsilon : ℚ
  gae_lambda : ℚ
  value_loss_coef : ℚ
  entropy_coef : ℚ
  clip_vloss : Bool
  clip_param : ℚ
  max_grad_norm : ℚ
  target_kl : Option ℚ
  num_episode : Int
  rollout_length : Int

/-- The attribute names a `PPOArguments` instance carries (its dataclass
fields, inherited and own), in declaration order. -/
def ppoArgumentsFields : List String :=
  ["project", "algo_name", "use_cuda", "torch_deterministic", "seed",
   "env_id", "num_envs", "capture_video", "buffer_size", "batch_size",
   "gamma", "eval_episodes", "work_dir", "save_model", "train_log_interval",
   "test_log_interval", "save_interval", "logger", "hidden_dim",
   "learning_rate", "actor_lr", "critic_lr", "epsilon", "gae_lambda",
   "value_loss_coef", "entropy_coef", "clip_vloss", "clip_param",
   "max_grad_norm", "target_kl", "num_episode", "rollout_length"]

/-- Python attribute lookup on a `PPOArguments` instance: returns the
field's value for a declared field, and `none` (an `AttributeError` at the
access site) for any other name. -/
def PPOArguments.getattr (a : PPOArguments) : String → Option PyVal
  | "project" => some (PyVal.str a.project)
  | "algo_name" => some (PyVal.str a.algo_name)
  | "use_cuda" => some (PyVal.bool a.use_cuda)
  | "torch_deterministic" => some (PyVal.bool a.torch_deterministic)
  | "seed" => some (PyVal.int a.seed)
  | "env_id" => some (PyVal.str a.env_id)
  | "num_envs" => some (PyVal.int a.num_envs)
  | "capture_video" =>
      some (match a.capture_video with
            | some b => PyVal.bool b
            | none => PyVal.pynone)
  | "buffer_size" => some (PyVal.int a.buffer_size)
  | "batch_size" => some (PyVal.int a.batch_size)
  | "gamma" => some (PyVal.rat a.gamma)
  | "eval_episodes" => some (PyVal.int a.eval_episodes)
  | "work_dir" => some (PyVal.str a.work_dir)
  | "save_model" =>
      some (match a.save_model with
            | some b => PyVal.bool b
            | none => PyVal.pynone)
  | "train_log_interval" => some (PyVal.int a.train_log_interval)
  | "test_log_interval" => some (PyVal.int a.test_log_interval)
  | "save_interval" => some (PyVal.int a.save_interval)
  | "logger" => some (PyVal.str a.logger)
  | "hidden_dim" => some (PyVal.int a.hidden_dim)
  | "learning_rate" => some (PyVal.rat a.learning_rate)
  | "actor_lr" => some (PyVal.rat a.actor_lr)
  | "critic_lr" => some (PyVal.rat a.critic_lr)
  | "epsilon" => some (PyVal.rat a.epsilon)
  | "gae_lambda" => some (PyVal.rat a.gae_lambda)
  | "value_loss_coef" => some (PyVal.rat a.value_loss_coef)
  | "entropy_coef" => some (PyVal.rat a.entropy_coef)
  | "clip_vloss" => some (PyVal.bool a.clip_vloss)
  | "clip_param" => some (PyVal.rat a.clip_param)
  | "max_grad_norm" => some (PyVal.rat a.max_grad_norm)
  | "target_kl" =>
      some (match a.target_kl with
            | some q => PyVal.rat q
            | none => PyVal.pynone)
  | "num_episode" => some (PyVal.int a.num_episode)
  | "rollout_length" => some (PyVal.int a.rollout_length)
  | _ => none

/-- Python runtime errors surfaced by the agent. -/
inductive PyError where
  | attributeError
deriving DecidableEq

/-- Mutable state of a `PPOPenaltyAgent` relevant to `learn`: the
actor-critic network parameters (abstract type `θ`) and
`learner_update_step`. -/
structure AgentState (θ : Type) where
  actor_critic : θ
  learner_update_step : Nat

/-- `PPOPenaltyAgent.learn(batch)`. Lines 127–142 read the batch and run
network forward passes without touching `self.args` or mutating state;
line 145 then reads `self.args.norm_advantages`, which raises
`AttributeError` when the attribute is absent. Only afterwards (lines
150–181) are the losses combined, `optimizer.zero_grad`/`backward`/`step`
run and `learner_update_step` incremented; those are abstracted as
`gradStep` and the metrics value `metricsOf`. On error no state change
has happened, so the agent state the caller keeps is the input state. -/
def PPOPenaltyAgent.learn (θ B M : Type) (gradStep : θ → B → θ)
    (metricsOf : θ → B → M) (args : PPOArguments) (st : AgentState θ)
    (batch : B) : Except PyError (AgentState θ × M) :=
  match args.getattr "norm_advantages" with
  | Option.none => Except.error PyError.attributeError
  | Option.some _ =>
      Except.ok
        ({ actor_critic := gradStep st.actor_critic batch,
           learner_update_step := st.learner_update_step + 1 },
         metricsOf st.actor_critic batch)

end Cleanrl

open Cleanrl in
/-- C5: `PPOArguments` declares no `norm_advantages` field (attribute
lookup succeeds exactly on the declared fields), so for every agent and
every batch `PPOPenaltyAgent.learn` hits an `AttributeError` at the
advantage-normalization branch, before `optimizer.zero_grad`/`backward`/
`step`; no updated agent state is ever returned, so the network parameters
and `learner_update_step` the caller holds are unchanged. -/
theorem ppo_penalty_learn_raises_attribute_error (θ B M : Type)
    (gradStep : θ → B → θ) (metricsOf : θ → B → M) (args : PPOArguments)
    (st : AgentState θ) (batch : B) :
    "norm_advantages" ∉ ppoArgumentsFields ∧
    (∀ name, (args.getattr name).isSome = true ↔ name ∈ ppoArgumentsFields) ∧
    args.getattr "norm_advantages" = none ∧
    PPOPenaltyAgent.learn θ B M gradStep metricsOf args st batch =
      Except.error PyError.attributeError := by
  have hmem : ∀ name, (args.getattr name).isSome = true ↔
      name ∈ ppoArgumentsFields := by
    intro name
    rw [PPOArguments.getattr.eq_def, ppoArgumentsFields]
    split <;> simp_all
  refine ⟨by decide, hmem, ?_, ?_⟩
  · rfl
  · rfl

end RLToolkit

namespace RLToolkit

/-! ## Atari Rainbow beta annealing (`src/examples/atari/atari_rainbow.py`) -/

namespace AtariRainbow

/-- The beta value computed by `train_fn` when prioritized replay is
enabled and passed to `buffer.set_beta`:
`if env_step <= beta_anneal_step: beta = beta - env_step / beta_anneal_step
* (beta - beta_final) else: beta = beta_final`. -/
def trainFnBeta (beta0 beta_final : ℚ) (beta_anneal_step : Nat)
    (env_step : Nat) : ℚ :=
  if env_step ≤ beta_anneal_step then
    beta0 - (env_step : ℚ) / (beta_anneal_step : ℚ) * (beta0 - beta_final)
  else
    beta_final

end AtariRainbow

open AtariRainbow in
/-- C9: with prioritized replay enabled, the beta passed to
`buffer.set_beta` equals `beta0 - (env_step/beta_anneal_step)*(beta0 -
beta_final)` for `env_step ≤ beta_anneal_step` and `beta_final` afterwards;
it equals `beta0` at step 0, reaches `beta_final` exactly at
`env_step = beta_anneal_step`, and is non-decreasing when
`beta0 ≤ beta_final`. -/
theorem train_fn_beta_schedule (beta0 beta_final : ℚ) (a : Nat)
    (ha : 0 < a) :
    (∀ s, s ≤ a → trainFnBeta beta0 beta_final a s =
      beta0 - (s : ℚ) / (a : ℚ) * (beta0 - beta_final)) ∧
    (∀ s, a < s → trainFnBeta beta0 beta_final a s = beta_final) ∧
    trainFnBeta beta0 beta_final a 0 = beta0 ∧
    trainFnBeta beta0 beta_final a a = beta_final ∧
    (beta0 ≤ beta_final → ∀ s s', s ≤ s' →
      trainFnBeta beta0 beta_final a s ≤ trainFnBeta beta0 beta_final a s') := by
  have haQ : (0 : ℚ) < (a : ℚ) := by exact_mod_cast ha
  have ramp : ∀ s, s ≤ a → trainFnBeta beta0 beta_final a s =
      beta0 - (s : ℚ) / (a : ℚ) * (beta0 - beta_final) := by
    intro s hs
    rw [trainFnBeta, if_pos hs]
  have ramp_le_final : beta0 ≤ beta_final → ∀ s, s ≤ a →
      trainFnBeta beta0 beta_final a s ≤ beta_final := by
    intro hb s hs
    rw [ramp s hs]
    have ht0 : (0 : ℚ) ≤ (s : ℚ) / (a : ℚ) :=
      div_nonneg (by positivity) (le_of_lt haQ)
    have ht1 : (s : ℚ) / (a : ℚ) ≤ 1 := by
      rw [div_le_one haQ]
      exact_mod_cast hs
    nlinarith [mul_nonneg (sub_nonneg.2 ht1) (sub_nonneg.2 hb)]
  refine ⟨ramp, ?_, ?_, ?_, ?_⟩
  · intro s hs
    rw [trainFnBeta, if_neg (by omega)]
  · rw [ramp 0 (Nat.zero_le a)]
    simp
  · rw [ramp a le_rfl, div_self (ne_of_gt haQ)]
    ring
  · intro hb s s' hss
    by_cases hs' : s' ≤ a
    · have hs : s ≤ a := le_trans hss hs'
      rw [ramp s hs, ramp s' hs']
      have hdiv : (s : ℚ) / (a : ℚ) ≤ (s' : ℚ) / (a : ℚ) := by
        gcongr
      nlinarith [mul_le_mul_of_nonneg_right hdiv (sub_nonneg.2 hb)]
    · have h2 : trainFnBeta beta0 beta_final a s' = beta_final := by
        rw [trainFnBeta, if_neg hs']
      rw [h2]
      by_cases hs : s ≤ a
      · exact ramp_le_final hb s hs
      · rw [trainFnBeta, if_neg hs]

open AtariRainbow in
/-- C9 witness: `beta0 = 2/5`, `beta_final = 1`, `beta_anneal_step = 4`. -/
theorem train_fn_beta_schedule_witness :
    0 < 4 ∧
    trainFnBeta (2/5) 1 4 0 = 2/5 ∧
    trainFnBeta (2/5) 1 4 4 = 1 :=
  ⟨by decide, (train_fn_beta_schedule (2/5) 1 4 (by decide)).2.2.1,
    (train_fn_beta_schedule (2/5) 1 4 (by decide)).2.2.2.1⟩

/-! ## CloudpickleWrapper (`src/rltoolkit/envs/utils.py`) -/

namespace Envs

/-- `CloudpickleWrapper(data)`: wraps an arbitrary value for pickling via
cloudpickle. The wrapped type is abstract (`α`); `cloudpickle.dumps` /
`cloudpickle.loads` are external collaborators passed as functions. -/
structure CloudpickleWrapper (α : Type) where
  data : α

/-- `__getstate__`: `return cloudpickle.dumps(self.data)`. -/
def CloudpickleWrapper.getstate (dumps : α → String)
    (w : CloudpickleWrapper α) : String :=
  dumps w.data

/-- `__setstate__`: `self.data = cloudpickle.loads(data)`. -/
def CloudpickleWrapper.setstate (loads : String → α)
    (w : CloudpickleWrapper α) (s : String) : CloudpickleWrapper α :=
  { w with data := loads s }

end Envs

open Envs in
/-- C10: given that `cloudpickle.loads` inverts `cloudpickle.dumps`,
calling `__setstate__` on the string returned by `__getstate__` of a
wrapper holding `v` yields a wrapper whose `data` equals `v`, whatever
the receiving wrapper previously held. -/
theorem cloudpickle_wrapper_roundtrip (α : Type) (dumps : α → String)
    (loads : String → α) (hinv : ∀ v, loads (dumps v) = v) (v : α)
    (w : CloudpickleWrapper α) :
    (w.setstate loads ((CloudpickleWrapper.mk v).getstate dumps)).data = v := by
  rw [CloudpickleWrapper.setstate, CloudpickleWrapper.getstate]
  exact hinv v

open Envs in
/-- C10 witness: wrapped type `String` with the identity serialization. -/
theorem cloudpickle_wrapper_roundtrip_witness :
    ((CloudpickleWrapper.mk "old").setstate id
      ((CloudpickleWrapper.mk "payload").getstate id)).data = "payload" :=
  cloudpickle_wrapper_roundtrip String id id (fun _ => rfl) "payload"
    (CloudpickleWrapper.mk "old")

end RLToolkit
